import Mathlib

/-!
# Verification of the cirque circular FIFO queue

This file embeds the two variants of the circular FIFO queue:

* `RingBuffer` — the blocking-policy variant (`ringbuffer.go`): fixed
  capacity, writer suspends when the ring is full.
* `Cirque` — the growing-policy variant: the ring is enlarged by splicing
  new slots in after the write head instead of blocking.

Both variants keep two cursors (heads) over a cyclic chain of slots built
with `container/ring`.  The embedding linearises the cyclic chain as a
`List (Option T)` of slots (`none` = slot allocated but never written,
mirroring a `nil`/zero `Value` field), with the two heads as indices into
that list and `next` computed as `(i + 1) % length`.  Splicing `k` fresh
slots after the write head inserts them at position `writePos + 1` of the
linearisation; a node that sat at a later position keeps its identity, so
an index strictly beyond the insertion point is shifted by `k`.
Go `int` arguments and counters are embedded as `Int`.
-/

/-- The value held by the slot at index `i`, `none` when the slot was never
written (a `nil` `Value` field, whose type assertion in `read` would panic)
or when the index is out of range. -/
def slotAt {T : Type} (ring : List (Option T)) (i : Nat) : Option T :=
  ring.getD i none

namespace Cirque

/-- Growing-policy queue state: the linearised ring of slots, the two head
indices, and the `len`/`cap` counters kept in the Go struct. -/
structure State (T : Type) where
  ring : List (Option T)
  readPos : Nat
  writePos : Nat
  len : Int
  cap : Int
deriving Repr, DecidableEq

variable {T : Type}

/-- `New(n)`: `nil` for a non-positive requested capacity, otherwise a ring
of `n` unwritten slots with both heads on the same slot, `len = 0`,
`cap = n`. -/
def New (T : Type) (n : Int) : Option (State T) :=
  if n ≤ 0 then none
  else some { ring := List.replicate n.toNat none
            , readPos := 0
            , writePos := 0
            , len := 0
            , cap := n }

/-- `Len()` returns the `len` counter. -/
def Len (cq : State T) : Int := cq.len

/-- `write(item)`: store the item in the slot at the writer head. -/
def write (cq : State T) (item : T) : State T :=
  { cq with ring := cq.ring.set cq.writePos (some item) }

/-- `read()`: the value in the slot at the reader head; `none` embeds the
panic of the type assertion on an unwritten slot. -/
def read (cq : State T) : Option T :=
  slotAt cq.ring cq.readPos

/-- `moveWriterHeadForward()`: advance the writer head to the next slot. -/
def moveWriterHeadForward (cq : State T) : State T :=
  { cq with writePos := (cq.writePos + 1) % cq.ring.length }

/-- `moveReaderHeadForward()`: advance the reader head to the next slot. -/
def moveReaderHeadForward (cq : State T) : State T :=
  { cq with readPos := (cq.readPos + 1) % cq.ring.length }

/-- `grow(min)`: a negative request is logged and ignored; otherwise a fresh
ring of `min` unwritten slots is linked in immediately after the writer
head (`writeHead.Link(newRing)`; for `min = 0` the fresh ring is `nil` and
`Link` is a no-op) and the capacity counter is increased by `min`.  A node
sitting strictly after the insertion point in the linearisation keeps its
identity at index `+ min`. -/
def grow (cq : State T) (min : Int) : State T :=
  if min < 0 then cq
  else
    { cq with
      ring := cq.ring.take (cq.writePos + 1)
                ++ List.replicate min.toNat none
                ++ cq.ring.drop (cq.writePos + 1)
      , readPos := if cq.writePos < cq.readPos
                   then cq.readPos + min.toNat
                   else cq.readPos
      , cap := cq.cap + min }

/-- The write phase of one `Enqueue` iteration: write the item at the writer
head, increment `len`, and advance the writer head. -/
def writeLenAdvance (cq : State T) (item : T) : State T :=
  moveWriterHeadForward { write cq item with len := cq.len + 1 }

/-- One iteration of the `Enqueue` loop for batch length `batchLen`: grow by
`cap + batchLen` when the slot after the writer head is the reader head,
then write the item, increment `len`, and advance the writer head. -/
def enqueueStep (batchLen : Int) (cq : State T) (item : T) : State T :=
  writeLenAdvance
    (if (cq.writePos + 1) % cq.ring.length = cq.readPos
     then grow cq (cq.cap + batchLen)
     else cq) item

/-- `Enqueue(elements...)`: run the per-item step over the batch; the growth
request is sized from the length of the whole batch. -/
def Enqueue (cq : State T) (elements : List T) : State T :=
  elements.foldl (enqueueStep (elements.length : Int)) cq

/-- The `Dequeue` loop: up to `n` iterations, stopping when the reader head
meets the writer head; each iteration reads the slot at the reader head,
decrements `len`, and advances the reader head. -/
def dequeueLoop : Nat → State T → List (Option T) × State T
  | 0, cq => ([], cq)
  | Nat.succ k, cq =>
    if cq.readPos = cq.writePos then ([], cq)
    else
      let v := read cq
      let cq' := moveReaderHeadForward { cq with len := cq.len - 1 }
      let rest := dequeueLoop k cq'
      (v :: rest.1, rest.2)

/-- `Dequeue(n)`: `nil` and no state change for non-positive `n`, otherwise
the loop above. -/
def Dequeue (cq : State T) (n : Int) : List (Option T) × State T :=
  if n ≤ 0 then ([], cq) else dequeueLoop n.toNat cq

end Cirque

namespace RingBuffer

variable {T : Type}

/-- Blocking-policy queue state: the linearised ring of slots and the two
head indices; the capacity is the fixed ring length. -/
structure State (T : Type) where
  ring : List (Option T)
  readPos : Nat
  writePos : Nat
deriving Repr, DecidableEq

/-- `New(n)`: `nil` for a non-positive capacity, otherwise a ring of `n`
unwritten slots with both heads on the same slot. -/
def New (T : Type) (n : Int) : Option (State T) :=
  if n ≤ 0 then none
  else some { ring := List.replicate n.toNat none
            , readPos := 0
            , writePos := 0 }

/-- `write(item)`: store the item in the slot at the writer head. -/
def write (rb : State T) (item : T) : State T :=
  { rb with ring := rb.ring.set rb.writePos (some item) }

/-- `read()`: the value in the slot at the reader head. -/
def read (rb : State T) : Option T :=
  slotAt rb.ring rb.readPos

/-- `moveWriterHeadForward()`: advance the writer head to the next slot. -/
def moveWriterHeadForward (rb : State T) : State T :=
  { rb with writePos := (rb.writePos + 1) % rb.ring.length }

/-- `moveReaderHeadForward()`: advance the reader head (the best-effort
notification sent on `updateCh` has no effect on the queue state). -/
def moveReaderHeadForward (rb : State T) : State T :=
  { rb with readPos := (rb.readPos + 1) % rb.ring.length }

/-- `WriteOrWait(newItems)` run with no concurrent reader: items are written
one by one until the slot after the writer head is the reader head, at
which point the call blocks on `<-updateCh`.  The result is the state
reached and the suffix of items not yet written (nonempty exactly when the
suspension branch was reached, with the suspended item at its head). -/
def WriteOrWait : State T → List T → State T × List T
  | rb, [] => (rb, [])
  | rb, item :: rest =>
    if (rb.writePos + 1) % rb.ring.length = rb.readPos then (rb, item :: rest)
    else WriteOrWait (moveWriterHeadForward (write rb item)) rest

/-- The code path of `WriteOrWait` that follows the receive on `updateCh`:
write the item at the writer head and advance, with no further test. -/
def afterWake (rb : State T) (item : T) : State T :=
  moveWriterHeadForward (write rb item)

/-- Modelled from the spec: a post-wake step that re-checks the fullness
condition before storing — if the slot after the writer head is still the
reader head the writer keeps waiting (state unchanged, item not stored),
otherwise it proceeds as the code does. -/
def afterWakeRechecked (rb : State T) (item : T) : State T :=
  if (rb.writePos + 1) % rb.ring.length = rb.readPos then rb
  else afterWake rb item

/-- The `Read` loop: up to `n` iterations, stopping when the reader head
meets the writer head; each iteration reads the slot at the reader head and
advances the reader head. -/
def readLoop : Nat → State T → List (Option T) × State T
  | 0, rb => ([], rb)
  | Nat.succ k, rb =>
    if rb.readPos = rb.writePos then ([], rb)
    else
      let v := read rb
      let rb' := moveReaderHeadForward rb
      let rest := readLoop k rb'
      (v :: rest.1, rest.2)

/-- `Read(n)`: `nil` and no state change for non-positive `n`, otherwise the
loop above. -/
def Read (rb : State T) (n : Int) : List (Option T) × State T :=
  if n ≤ 0 then ([], rb) else readLoop n.toNat rb

end RingBuffer

/-! ## Representation predicate and reachability -/

/-- The ring with heads `r` and `w` represents the pending FIFO contents
`q`: both heads are in range, fewer than `length` items are pending (the
fullness test reserves one slot), the writer head sits `q.length` slots
after the reader head, and the `i`-th pending item occupies the slot `i`
places after the reader head. -/
structure RingRepr {T : Type} (ring : List (Option T)) (r w : Nat) (q : List T) : Prop where
  hL : 0 < ring.length
  hr : r < ring.length
  hw : w < ring.length
  hq : q.length < ring.length
  hcur : w = (r + q.length) % ring.length
  hslot : ∀ i, i < q.length → ring[(r + i) % ring.length]? = some (q[i]?)

namespace Cirque

variable {T : Type}

/-- A growing-policy state represents pending contents `q` when its ring
does and its `len`/`cap` counters agree with `q` and the ring. -/
def Rep (cq : State T) (q : List T) : Prop :=
  RingRepr cq.ring cq.readPos cq.writePos q
    ∧ cq.len = (q.length : Int) ∧ cq.cap = (cq.ring.length : Int)

/-- States reachable from a successful construction by the public
operations `Enqueue` and `Dequeue` with arbitrary arguments. -/
inductive Reach : State T → Prop where
  | new (n : Int) (cq : State T) : New T n = some cq → Reach cq
  | enq (cq : State T) (es : List T) : Reach cq → Reach (Enqueue cq es)
  | deq (cq : State T) (n : Int) : Reach cq → Reach (Dequeue cq n).2

/-- Enqueue the items of `xs` one call at a time. -/
def enqueueEach (cq : State T) (xs : List T) : State T :=
  xs.foldl (fun s x => Enqueue s [x]) cq

/-- Run one `Dequeue` call per entry of `ks`, concatenating the results. -/
def dequeueChunks : State T → List Int → List (Option T) × State T
  | cq, [] => ([], cq)
  | cq, k :: ks =>
    ((Dequeue cq k).1 ++ (dequeueChunks (Dequeue cq k).2 ks).1,
     (dequeueChunks (Dequeue cq k).2 ks).2)

/-- Number of slots from the reader head up to the writer head, going
forward around the ring. -/
def itemDist (cq : State T) : Nat :=
  (cq.writePos + cq.ring.length - cq.readPos) % cq.ring.length

/-- A public operation of the growing-policy queue, for stating properties
of arbitrary call sequences. -/
inductive Op (T : Type) where
  | enq (elements : List T)
  | deq (n : Int)

/-- Run a sequence of public operations, collecting the concatenation of
all enqueued items and the concatenation of all dequeue results. -/
def runOps : State T → List (Op T) → State T × List T × List (Option T)
  | cq, [] => (cq, [], [])
  | cq, Op.enq es :: ops =>
      let r := runOps (Enqueue cq es) ops
      (r.1, es ++ r.2.1, r.2.2)
  | cq, Op.deq n :: ops =>
      let d := Dequeue cq n
      let r := runOps d.2 ops
      (r.1, r.2.1, d.1 ++ r.2.2)

end Cirque

namespace RingBuffer

variable {T : Type}

/-- A blocking-policy state represents pending contents `q` when its ring
does. -/
def Rep (rb : State T) (q : List T) : Prop :=
  RingRepr rb.ring rb.readPos rb.writePos q

/-- Number of slots from the reader head up to the writer head, going
forward around the ring. -/
def itemDist (rb : State T) : Nat :=
  (rb.writePos + rb.ring.length - rb.readPos) % rb.ring.length

end RingBuffer

/-! ## Concrete states used to instantiate the theorems -/

/-- Fresh growing-policy queue of capacity 50 (the spec's scenario). -/
def scenarioQueue : Cirque.State Nat :=
  { ring := List.replicate 50 none, readPos := 0, writePos := 0, len := 0, cap := 50 }

/-- Fresh growing-policy queue of capacity 2. -/
def pairQueue : Cirque.State Nat :=
  { ring := List.replicate 2 none, readPos := 0, writePos := 0, len := 0, cap := 2 }

/-- Fresh growing-policy queue of capacity 3. -/
def threeQueue : Cirque.State Nat :=
  { ring := List.replicate 3 none, readPos := 0, writePos := 0, len := 0, cap := 3 }

/-- Fresh growing-policy queue of capacity 5. -/
def fiveQueue : Cirque.State Nat :=
  { ring := List.replicate 5 none, readPos := 0, writePos := 0, len := 0, cap := 5 }

/-- Growing-policy queue of capacity 2 holding the single item 5 (reachable
by enqueueing 5 into `pairQueue`). -/
def loadedQueue : Cirque.State Nat :=
  { ring := [some 5, none], readPos := 0, writePos := 1, len := 1, cap := 2 }

/-- Fresh blocking-policy queue of capacity 2. -/
def twinBuffer : RingBuffer.State Nat :=
  { ring := List.replicate 2 none, readPos := 0, writePos := 0 }

/-- Fresh blocking-policy queue of capacity 4 (the spec's scenario). -/
def fourBuffer : RingBuffer.State Nat :=
  { ring := List.replicate 4 none, readPos := 0, writePos := 0 }

/-- Fresh blocking-policy queue of capacity 5. -/
def fiveBuffer : RingBuffer.State Nat :=
  { ring := List.replicate 5 none, readPos := 0, writePos := 0 }

/-- Blocking-policy queue of capacity 2 holding the single item 5: a full
ring (the slot after the writer head is the reader head), reached from
`twinBuffer` by writing one item. -/
def loadedBuffer : RingBuffer.State Nat :=
  { ring := [some 5, none], readPos := 0, writePos := 1 }

/-! ## Arithmetic helpers -/

/-- Every modulus computation in the development involves a sum below twice
the ring length; characterise it by the two cases. -/
lemma mod_two_cases {a L : Nat} (hL : 0 < L) (ha : a < 2 * L) :
    (a < L ∧ a % L = a) ∨ (L ≤ a ∧ a % L = a - L) := by
  rcases Nat.lt_or_ge a L with h | h
  · exact Or.inl ⟨h, Nat.mod_eq_of_lt h⟩
  · refine Or.inr ⟨h, ?_⟩
    rw [Nat.mod_eq_sub_mod h]
    exact Nat.mod_eq_of_lt (by omega)

/-! ## Lemmas about the ring representation -/

lemma RingRepr.empty_iff {T : Type} {ring : List (Option T)} {r w : Nat} {q : List T}
    (h : RingRepr ring r w q) : r = w ↔ q = [] := by
  obtain ⟨hL, hr, hw, hq, hcur, -⟩ := h
  rw [← List.length_eq_zero]
  rcases mod_two_cases (a := r + q.length) hL (by omega) with ⟨h1, e1⟩ | ⟨h1, e1⟩ <;> omega

lemma RingRepr.full_iff {T : Type} {ring : List (Option T)} {r w : Nat} {q : List T}
    (h : RingRepr ring r w q) :
    (w + 1) % ring.length = r ↔ q.length = ring.length - 1 := by
  obtain ⟨hL, hr, hw, hq, hcur, -⟩ := h
  rcases mod_two_cases (a := r + q.length) hL (by omega) with ⟨h1, e1⟩ | ⟨h1, e1⟩ <;>
    rcases mod_two_cases (a := w + 1) hL (by omega) with ⟨h2, e2⟩ | ⟨h2, e2⟩ <;> omega

lemma RingRepr.itemDist_eq {T : Type} {ring : List (Option T)} {r w : Nat} {q : List T}
    (h : RingRepr ring r w q) :
    (w + ring.length - r) % ring.length = q.length := by
  obtain ⟨hL, hr, hw, hq, hcur, -⟩ := h
  rcases mod_two_cases (a := r + q.length) hL (by omega) with ⟨h1, e1⟩ | ⟨h1, e1⟩
  · have e2 : w + ring.length - r = q.length + ring.length := by omega
    rw [e2, Nat.add_mod_right]
    exact Nat.mod_eq_of_lt hq
  · have e2 : w + ring.length - r = q.length := by omega
    rw [e2]
    exact Nat.mod_eq_of_lt hq

lemma RingRepr.write {T : Type} {ring : List (Option T)} {r w : Nat} {q : List T} (x : T)
    (h : RingRepr ring r w q) (hlen : q.length + 1 < ring.length) :
    RingRepr (ring.set w (some x)) r ((w + 1) % ring.length) (q ++ [x]) := by
  obtain ⟨hL, hr, hw, hq, hcur, hslot⟩ := h
  have hLs : (ring.set w (some x)).length = ring.length := List.length_set ring w _
  refine ⟨by omega, by omega, ?_, ?_, ?_, ?_⟩
  · rw [hLs]
    exact Nat.mod_lt _ hL
  · rw [hLs, List.length_append, List.length_singleton]
    omega
  · rw [hLs, List.length_append, List.length_singleton, hcur, Nat.mod_add_mod]
    congr 1
  · intro i hi
    rw [hLs]
    rw [List.length_append, List.length_singleton] at hi
    rcases Nat.lt_or_ge i q.length with hi' | hi'
    · have hne : w ≠ (r + i) % ring.length := by
        intro he
        rcases mod_two_cases (a := r + q.length) hL (by omega) with ⟨h1, e1⟩ | ⟨h1, e1⟩ <;>
          rcases mod_two_cases (a := r + i) hL (by omega) with ⟨h2, e2⟩ | ⟨h2, e2⟩ <;> omega
    
      rw [List.getElem?_set_ne hne, hslot i hi']
      congr 1
      rw [List.getElem?_append]
      rw [if_pos hi']
    · have hieq : i = q.length := by omega
      subst hieq
      have hidx : (r + q.length) % ring.length = w := hcur.symm
      rw [hidx, List.getElem?_set, if_pos rfl, if_pos hw]
      rw [List.getElem?_append_right (le_refl q.length)]
      simp

lemma RingRepr.read_cons {T : Type} {ring : List (Option T)} {r w : Nat} {x : T} {q : List T}
    (h : RingRepr ring r w (x :: q)) :
    ring[r]? = some (some x) ∧ RingRepr ring ((r + 1) % ring.length) w q := by
  obtain ⟨hL, hr, hw, hq, hcur, hslot⟩ := h
  have h0 := hslot 0 (by simp)
  rw [Nat.add_zero, Nat.mod_eq_of_lt hr] at h0
  rw [List.length_cons] at hq hcur
  constructor
  · simpa using h0
  · refine ⟨hL, Nat.mod_lt _ hL, hw, by omega, ?_, ?_⟩
    · rw [Nat.mod_add_mod, hcur]
      congr 1
      omega
    · intro i hi
      have hs := hslot (i + 1) (by simp; omega)
      rw [List.getElem?_cons_succ] at hs
      rw [Nat.mod_add_mod, show r + 1 + i = r + (i + 1) by omega]
      exact hs

/-! ## Lemmas about splicing new slots in after the write head -/

lemma splice_length {T : Type} (ring : List (Option T)) (w k : Nat) (hw : w < ring.length) :
    (ring.take (w + 1) ++ List.replicate k (none : Option T) ++ ring.drop (w + 1)).length
      = ring.length + k := by
  simp [List.length_take]
  omega

lemma splice_getElem_old {T : Type} {ring : List (Option T)} {w : Nat} (hw : w < ring.length)
    (k p : Nat) (hp : p < ring.length) :
    (ring.take (w + 1) ++ List.replicate k (none : Option T) ++ ring.drop (w + 1))[if p ≤ w then p else p + k]?
      = ring[p]? := by
  have ht : (ring.take (w + 1)).length = w + 1 := by
    simp [List.length_take]
    omega
  by_cases hpw : p ≤ w
  · rw [if_pos hpw, List.append_assoc, List.getElem?_append, ht, if_pos (by omega),
      List.getElem?_take, if_pos (by omega)]
  · rw [if_neg hpw, List.append_assoc, List.getElem?_append, ht, if_neg (by omega),
      List.getElem?_append, List.length_replicate, if_neg (by omega), List.getElem?_drop]
    congr 1
    omega

lemma splice_getElem_new {T : Type} {ring : List (Option T)} {w : Nat} (hw : w < ring.length)
    (k j : Nat) (hj : j < k) :
    (ring.take (w + 1) ++ List.replicate k (none : Option T) ++ ring.drop (w + 1))[w + 1 + j]?
      = some none := by
  have ht : (ring.take (w + 1)).length = w + 1 := by
    simp [List.length_take]
    omega
  rw [List.append_assoc, List.getElem?_append, ht, if_neg (by omega),
    List.getElem?_append, List.length_replicate, if_pos (by omega),
    List.getElem?_replicate, if_pos (by omega)]

lemma RingRepr.splice {T : Type} {ring : List (Option T)} {r w : Nat} {q : List T}
    (h : RingRepr ring r w q) (k : Nat) :
    RingRepr (ring.take (w + 1) ++ List.replicate k (none : Option T) ++ ring.drop (w + 1))
      (if w < r then r + k else r) w q := by
  obtain ⟨hL, hr, hw, hq, hcur, hslot⟩ := h
  have hlen := splice_length ring w k hw
  rcases mod_two_cases (a := r + q.length) hL (by omega) with ⟨h1, e1⟩ | ⟨h1, e1⟩
  · -- no wraparound: r ≤ w, reader head index unshifted
    rw [if_neg (by omega)]
    refine ⟨by omega, by omega, by omega, by omega, ?_, ?_⟩
    · rw [hlen, Nat.mod_eq_of_lt (by omega)]
      omega
    · intro i hi
      rw [hlen]
      have hp : (r + i) % ring.length < ring.length := Nat.mod_lt _ hL
      have hidx : (r + i) % (ring.length + k)
          = if (r + i) % ring.length ≤ w then (r + i) % ring.length
            else (r + i) % ring.length + k := by
        rcases mod_two_cases (a := r + i) hL (by omega) with ⟨h2, e2⟩ | ⟨h2, e2⟩ <;>
          rcases mod_two_cases (a := r + i) (L := ring.length + k)
            (by omega) (by omega) with ⟨h3, e3⟩ | ⟨h3, e3⟩ <;>
          split_ifs <;> omega
      rw [hidx, splice_getElem_old hw k _ hp]
      exact hslot i hi
  · -- wraparound: w < r, reader head index shifted by k
    rw [if_pos (by omega)]
    refine ⟨by omega, by omega, by omega, by omega, ?_, ?_⟩
    · rw [hlen]
      rcases mod_two_cases (a := r + k + q.length) (L := ring.length + k)
        (by omega) (by omega) with ⟨h3, e3⟩ | ⟨h3, e3⟩ <;> omega
    · intro i hi
      rw [hlen]
      have hp : (r + i) % ring.length < ring.length := Nat.mod_lt _ hL
      have hidx : (r + k + i) % (ring.length + k)
          = if (r + i) % ring.length ≤ w then (r + i) % ring.length
            else (r + i) % ring.length + k := by
        rcases mod_two_cases (a := r + i) hL (by omega) with ⟨h2, e2⟩ | ⟨h2, e2⟩ <;>
          rcases mod_two_cases (a := r + k + i) (L := ring.length + k)
            (by omega) (by omega) with ⟨h3, e3⟩ | ⟨h3, e3⟩ <;>
          split_ifs <;> omega
      rw [hidx, splice_getElem_old hw k _ hp]
      exact hslot i hi

/-! ## State-level lemmas for the growing-policy queue -/

namespace Cirque

variable {T : Type}

lemma rep_new (n : Int) (cq : State T) (h : New T n = some cq) : Rep cq [] := by
  unfold New at h
  split at h
  · exact absurd h (by simp)
  next hn =>
    cases h
    refine ⟨⟨?_, ?_, ?_, ?_, ?_, ?_⟩, ?_, ?_⟩ <;>
      simp [List.length_replicate] <;> omega

lemma rep_grow {cq : State T} {q : List T} (h : Rep cq q) {min : Int} (hmin : 0 ≤ min) :
    Rep (grow cq min) q
      ∧ (grow cq min).ring.length = cq.ring.length + min.toNat
      ∧ (grow cq min).writePos = cq.writePos
      ∧ (grow cq min).len = cq.len := by
  obtain ⟨hrr, hlen, hcap⟩ := h
  have hw := hrr.hw
  have hsl := splice_length cq.ring cq.writePos min.toNat hw
  have hrep := hrr.splice min.toNat
  rw [grow, if_neg (by omega)]
  refine ⟨⟨hrep, hlen, ?_⟩, hsl, rfl, rfl⟩
  show cq.cap + min = _
  rw [hsl]
  push_cast
  omega

lemma rep_writeLenAdvance {cq : State T} {q : List T} (h : Rep cq q) (x : T)
    (hroom : q.length + 1 < cq.ring.length) :
    Rep (writeLenAdvance cq x) (q ++ [x]) := by
  obtain ⟨hrr, hlen, hcap⟩ := h
  have hw := RingRepr.write x hrr hroom
  have hls : (cq.ring.set cq.writePos (some x)).length = cq.ring.length :=
    List.length_set cq.ring cq.writePos _
  rw [writeLenAdvance, moveWriterHeadForward, write]
  refine ⟨?_, ?_, ?_⟩
  · show RingRepr _ cq.readPos ((cq.writePos + 1) % (cq.ring.set cq.writePos (some x)).length) _
    rw [hls]
    exact hw
  · show cq.len + 1 = _
    rw [List.length_append, List.length_singleton]
    push_cast
    omega
  · show cq.cap = _
    rw [hls]
    exact hcap

lemma rep_enqueueStep {cq : State T} {q : List T} (h : Rep cq q) (x : T) {b : Int}
    (hb : 0 ≤ b) : Rep (enqueueStep b cq x) (q ++ [x]) := by
  rw [enqueueStep]
  by_cases hfull : (cq.writePos + 1) % cq.ring.length = cq.readPos
  · rw [if_pos hfull]
    have hL := h.1.hL
    have hq := h.1.hq
    have hcap := h.2.2
    have hg := @rep_grow T cq q h (cq.cap + b) (by omega)
    have hroom : q.length + 1 < (grow cq (cq.cap + b)).ring.length := by
      rw [hg.2.1]
      omega
    exact rep_writeLenAdvance hg.1 x hroom
  · rw [if_neg hfull]
    have hq := h.1.hq
    have hne : q.length ≠ cq.ring.length - 1 := fun he => hfull ((h.1.full_iff).mpr he)
    exact rep_writeLenAdvance h x (by omega)

lemma rep_enqueue {cq : State T} {q : List T} (h : Rep cq q) (es : List T) :
    Rep (Enqueue cq es) (q ++ es) := by
  rw [Enqueue]
  have hb : (0 : Int) ≤ (es.length : Int) := Int.natCast_nonneg _
  generalize hB : (es.length : Int) = b at hb
  clear hB
  induction es generalizing cq q with
  | nil => simpa using h
  | cons x es ih =>
    rw [List.foldl_cons]
    have h1 := rep_enqueueStep h x hb
    have h2 := ih h1
    rwa [List.append_assoc, List.singleton_append] at h2

lemma rep_enqueueEach {cq : State T} {q : List T} (h : Rep cq q) (xs : List T) :
    Rep (enqueueEach cq xs) (q ++ xs) := by
  induction xs generalizing cq q with
  | nil => simpa using h
  | cons x xs ih =>
    rw [enqueueEach, List.foldl_cons]
    have h1 := rep_enqueue h [x]
    have h2 := ih h1
    rw [enqueueEach] at h2
    rwa [List.append_assoc, List.singleton_append] at h2

lemma dequeueLoop_spec :
    ∀ (n : Nat) (cq : State T) (q : List T), Rep cq q →
      (dequeueLoop n cq).1 = (q.take n).map some
        ∧ Rep (dequeueLoop n cq).2 (q.drop n) := by
  intro n
  induction n with
  | zero =>
    intro cq q h
    simpa [dequeueLoop] using h
  | succ k ih =>
    intro cq q h
    rw [dequeueLoop]
    by_cases hempty : cq.readPos = cq.writePos
    · rw [if_pos hempty]
      have hq : q = [] := (h.1.empty_iff).mp hempty
      subst hq
      simpa using h
    · rw [if_neg hempty]
      obtain ⟨x, q', rfl⟩ : ∃ x q', q = x :: q' := by
        cases q with
        | nil => exact absurd ((h.1.empty_iff).mpr rfl) hempty
        | cons a l => exact ⟨a, l, rfl⟩
      obtain ⟨hrr, hlen, hcap⟩ := h
      obtain ⟨hslot0, hrest⟩ := hrr.read_cons
      have hread : read cq = some x := by
        rw [read, slotAt, List.getD_eq_getElem?_getD, hslot0]
        rfl
      have h' : Rep (moveReaderHeadForward { cq with len := cq.len - 1 }) q' := by
        rw [moveReaderHeadForward]
        refine ⟨hrest, ?_, hcap⟩
        show cq.len - 1 = _
        rw [List.length_cons] at hlen
        push_cast at hlen ⊢
        omega
      have hk := ih _ _ h'
      refine ⟨?_, ?_⟩
      · show read cq :: (dequeueLoop k _).1 = _
        rw [hread, List.take_succ_cons, List.map_cons, hk.1]
      · show Rep (dequeueLoop k _).2 _
        rw [List.drop_succ_cons]
        exact hk.2

lemma rep_dequeue {cq : State T} {q : List T} (h : Rep cq q) (n : Int) :
    (Dequeue cq n).1 = (q.take n.toNat).map some
      ∧ Rep (Dequeue cq n).2 (q.drop n.toNat) := by
  rw [Dequeue]
  by_cases hn : n ≤ 0
  · rw [if_pos hn]
    have h0 : n.toNat = 0 := by omega
    rw [h0]
    simpa using h
  · rw [if_neg hn]
    exact dequeueLoop_spec n.toNat cq q h

lemma dequeueChunks_spec :
    ∀ (ks : List Int) (cq : State T) (q : List T), Rep cq q →
      (dequeueChunks cq ks).1 = (q.take (ks.map Int.toNat).sum).map some
        ∧ Rep (dequeueChunks cq ks).2 (q.drop (ks.map Int.toNat).sum) := by
  intro ks
  induction ks with
  | nil =>
    intro cq q h
    simpa [dequeueChunks] using h
  | cons k ks ih =>
    intro cq q h
    have h1 := rep_dequeue h k
    have h2 := ih _ _ h1.2
    rw [dequeueChunks]
    refine ⟨?_, ?_⟩
    · show (Dequeue cq k).1 ++ (dequeueChunks (Dequeue cq k).2 ks).1 = _
      rw [h1.1, h2.1, List.map_cons, List.sum_cons, List.take_add, List.map_append]
    · show Rep (dequeueChunks (Dequeue cq k).2 ks).2 _
      rw [List.map_cons, List.sum_cons, ← List.drop_drop]
      exact h2.2

lemma reach_rep {cq : State T} (h : Reach cq) : ∃ q, Rep cq q := by
  induction h with
  | new n cq h => exact ⟨[], rep_new n cq h⟩
  | enq cq es _ ih =>
    obtain ⟨q, hq⟩ := ih
    exact ⟨q ++ es, rep_enqueue hq es⟩
  | deq cq n _ ih =>
    obtain ⟨q, hq⟩ := ih
    exact ⟨q.drop n.toNat, (rep_dequeue hq n).2⟩

lemma runOps_spec :
    ∀ (ops : List (Op T)) (cq : State T) (q : List T), Rep cq q →
      ∃ outVals q', Rep (runOps cq ops).1 q'
        ∧ (runOps cq ops).2.2 = outVals.map some
        ∧ q ++ (runOps cq ops).2.1 = outVals ++ q' := by
  intro ops
  induction ops with
  | nil =>
    intro cq q h
    exact ⟨[], q, by simpa [runOps] using h, by simp [runOps], by simp [runOps]⟩
  | cons op ops ih =>
    intro cq q h
    cases op with
    | enq es =>
      obtain ⟨outVals, q', h1, h2, h3⟩ := ih _ _ (rep_enqueue h es)
      refine ⟨outVals, q', ?_, ?_, ?_⟩
      · show Rep (runOps (Enqueue cq es) ops).1 q'
        exact h1
      · show (runOps (Enqueue cq es) ops).2.2 = _
        exact h2
      · show q ++ (es ++ (runOps (Enqueue cq es) ops).2.1) = _
        rw [← List.append_assoc]
        exact h3
    | deq n =>
      have hd := rep_dequeue h n
      obtain ⟨outVals, q', h1, h2, h3⟩ := ih _ _ hd.2
      refine ⟨q.take n.toNat ++ outVals, q', h1, ?_, ?_⟩
      · show (Dequeue cq n).1 ++ (runOps (Dequeue cq n).2 ops).2.2 = _
        rw [hd.1, h2, List.map_append]
      · show q ++ (runOps (Dequeue cq n).2 ops).2.1 = _
        calc q ++ (runOps (Dequeue cq n).2 ops).2.1
            = q.take n.toNat ++ (q.drop n.toNat ++ (runOps (Dequeue cq n).2 ops).2.1) := by
              rw [← List.append_assoc, List.take_append_drop]
          _ = q.take n.toNat ++ (outVals ++ q') := by rw [h3]
          _ = (q.take n.toNat ++ outVals) ++ q' := by rw [List.append_assoc]

end Cirque

/-! ## State-level lemmas for the blocking-policy queue -/

namespace RingBuffer

variable {T : Type}

lemma rep_read_one {rb : State T} {x : T} {q : List T} (h : Rep rb (x :: q)) :
    Read rb 1 = ([some x], moveReaderHeadForward rb)
      ∧ Rep (moveReaderHeadForward rb) q := by
  have hne : rb.readPos ≠ rb.writePos := fun he => by
    simpa using (RingRepr.empty_iff h).mp he
  obtain ⟨hslot0, hrest⟩ := RingRepr.read_cons h
  have hread : read rb = some x := by
    rw [read, slotAt, List.getD_eq_getElem?_getD, hslot0]
    rfl
  constructor
  · rw [Read, if_neg (by norm_num)]
    show readLoop (Nat.succ 0) rb = _
    simp only [readLoop]
    rw [if_neg hne, hread]
  · exact hrest

lemma rep_afterWake {rb : State T} {q : List T} (h : Rep rb q) (y : T)
    (hroom : q.length + 1 < rb.ring.length) :
    Rep (afterWake rb y) (q ++ [y]) := by
  have hw := RingRepr.write y h hroom
  have hls : (rb.ring.set rb.writePos (some y)).length = rb.ring.length :=
    List.length_set rb.ring rb.writePos _
  rw [afterWake, moveWriterHeadForward, write]
  show RingRepr _ rb.readPos ((rb.writePos + 1) % (rb.ring.set rb.writePos (some y)).length) _
  rw [hls]
  exact hw

end RingBuffer

/-! ## Representation facts for the concrete loaded states -/

lemma rep_loadedQueue : Cirque.Rep loadedQueue [5] := by
  refine ⟨⟨by decide, by decide, by decide, by decide, by decide, ?_⟩, by decide, by decide⟩
  intro i hi
  have h0 : i = 0 := by
    simp at hi
    omega
  subst h0
  decide

lemma rep_loadedBuffer : RingBuffer.Rep loadedBuffer [5] := by
  refine ⟨by decide, by decide, by decide, by decide, by decide, ?_⟩
  intro i hi
  have h0 : i = 0 := by
    simp at hi
    omega
  subst h0
  decide

/-! ## Claim theorems -/

/-- C1: For the growing-policy queue used sequentially, `Dequeue` returns
items in exactly the order `Enqueue` wrote them, regardless of how reads
are chunked: from any successful construction, after enqueueing the items
of `xs` one call at a time, any sequence of `Dequeue` calls whose requested
counts total at least `xs.length` returns exactly the items of `xs`, in
order, and any further `Dequeue` on the now-empty queue returns an empty
result without error. -/
theorem C1_fifo_order {T : Type} (n : Int) (cq0 : Cirque.State T)
    (h0 : Cirque.New T n = some cq0) (xs : List T) (ks : List Int)
    (hks : xs.length ≤ (ks.map Int.toNat).sum) :
    (Cirque.dequeueChunks (Cirque.enqueueEach cq0 xs) ks).1 = xs.map some
      ∧ ∀ m : Int,
          (Cirque.Dequeue (Cirque.dequeueChunks (Cirque.enqueueEach cq0 xs) ks).2 m).1 = [] := by
  have h1 := Cirque.rep_enqueueEach (Cirque.rep_new n cq0 h0) xs
  rw [List.nil_append] at h1
  have h2 := Cirque.dequeueChunks_spec ks _ _ h1
  have h3 : xs.drop (ks.map Int.toNat).sum = [] := List.drop_eq_nil_of_le hks
  constructor
  · rw [h2.1, List.take_of_length_le hks]
  · intro m
    have h4 := Cirque.rep_dequeue (h3 ▸ h2.2) m
    rw [h4.1]
    simp

/-- C1 witness: the concrete scenario — capacity 50, the integers 0..499
enqueued one call at a time, 500 single-item dequeues. -/
theorem C1_fifo_order_witness :
    Cirque.New Nat 50 = some scenarioQueue
      ∧ (List.range 500).length ≤ ((List.replicate 500 (1 : Int)).map Int.toNat).sum
      ∧ (Cirque.dequeueChunks (Cirque.enqueueEach scenarioQueue (List.range 500))
          (List.replicate 500 1)).1 = (List.range 500).map some
      ∧ ∀ m : Int,
          (Cirque.Dequeue (Cirque.dequeueChunks (Cirque.enqueueEach scenarioQueue (List.range 500))
            (List.replicate 500 1)).2 m).1 = [] := by
  have h0 : Cirque.New Nat 50 = some scenarioQueue := rfl
  have hks : (List.range 500).length ≤ ((List.replicate 500 (1 : Int)).map Int.toNat).sum := by
    rw [List.map_replicate, List.sum_replicate, List.length_range]
    norm_num
  have h := C1_fifo_order 50 scenarioQueue h0 (List.range 500) (List.replicate 500 1) hks
  exact ⟨h0, hks, h.1, h.2⟩

/-- C2 counterexample: with capacity 4 and no concurrent reader,
`WriteOrWait` does not complete 4 items without suspending — the write of
the 4th item already reaches the suspension branch, leaving the unwritten
suffix `[3]`. -/
theorem C2_counterexample :
    RingBuffer.New Nat 4 = some fourBuffer
      ∧ (RingBuffer.WriteOrWait fourBuffer [0, 1, 2, 3]).2 = [3]
      ∧ ¬ (RingBuffer.WriteOrWait fourBuffer [0, 1, 2, 3]).2 = [] :=
  ⟨rfl, by decide, by decide⟩

/-- C2 amended: with capacity 4 and no concurrent reader, `WriteOrWait`
completes the first 3 items without ever reaching the suspension branch,
and already the write of a 4th item suspends; a concurrent read of 1 item
unblocks it, after which the 4th write completes and `Read(10)` returns the
remaining 3 items in original order. -/
theorem C2_blocking_capacity_scenario :
    (RingBuffer.WriteOrWait fourBuffer [0, 1, 2]).2 = []
      ∧ (RingBuffer.WriteOrWait fourBuffer [0, 1, 2, 3]).2 = [3]
      ∧ (RingBuffer.Read (RingBuffer.WriteOrWait fourBuffer [0, 1, 2, 3]).1 1).1 = [some 0]
      ∧ (RingBuffer.Read
          (RingBuffer.afterWake
            (RingBuffer.Read (RingBuffer.WriteOrWait fourBuffer [0, 1, 2, 3]).1 1).2 3) 10).1
        = [some 1, some 2, some 3] := by
  refine ⟨by decide, by decide, by decide, by decide⟩

/-- C3: in every reachable state of the growing-policy queue the read
cursor has never been advanced past the write cursor: every slot from the
read cursor up to (but excluding) the write cursor holds a value, the
internal read step succeeds whenever the cursors differ, and the value
extraction in `Dequeue` never fails (no `none` in any result). -/
theorem C3_read_cursor_never_passes_write {T : Type} {cq : Cirque.State T}
    (h : Cirque.Reach cq) :
    (∀ i, i < Cirque.itemDist cq →
        (slotAt cq.ring ((cq.readPos + i) % cq.ring.length)).isSome)
      ∧ (cq.readPos ≠ cq.writePos → (Cirque.read cq).isSome)
      ∧ ∀ (n : Int) (v : Option T), v ∈ (Cirque.Dequeue cq n).1 → v.isSome := by
  obtain ⟨q, hrep⟩ := Cirque.reach_rep h
  have hdist : Cirque.itemDist cq = q.length := by
    rw [Cirque.itemDist]
    exact RingRepr.itemDist_eq hrep.1
  refine ⟨?_, ?_, ?_⟩
  · intro i hi
    rw [hdist] at hi
    rw [slotAt, List.getD_eq_getElem?_getD, hrep.1.hslot i hi, Option.getD_some,
      List.getElem?_eq_getElem hi]
    rfl
  · intro hne
    obtain ⟨x, q', rfl⟩ : ∃ x q', q = x :: q' := by
      cases q with
      | nil => exact absurd ((hrep.1.empty_iff).mpr rfl) hne
      | cons a l => exact ⟨a, l, rfl⟩
    obtain ⟨hslot0, -⟩ := RingRepr.read_cons hrep.1
    rw [Cirque.read, slotAt, List.getD_eq_getElem?_getD, hslot0]
    rfl
  · intro m v hv
    rw [(Cirque.rep_dequeue hrep m).1] at hv
    obtain ⟨a, -, rfl⟩ := List.mem_map.mp hv
    rfl

/-- C3 witness: the reachable state obtained by constructing with capacity
2 and enqueueing the single item 7. -/
theorem C3_read_cursor_never_passes_write_witness :
    (∀ i, i < Cirque.itemDist (Cirque.Enqueue pairQueue [7]) →
        (slotAt (Cirque.Enqueue pairQueue [7]).ring
          (((Cirque.Enqueue pairQueue [7]).readPos + i)
            % (Cirque.Enqueue pairQueue [7]).ring.length)).isSome)
      ∧ ((Cirque.Enqueue pairQueue [7]).readPos ≠ (Cirque.Enqueue pairQueue [7]).writePos →
          (Cirque.read (Cirque.Enqueue pairQueue [7])).isSome)
      ∧ ∀ (n : Int) (v : Option Nat),
          v ∈ (Cirque.Dequeue (Cirque.Enqueue pairQueue [7]) n).1 → v.isSome :=
  C3_read_cursor_never_passes_write
    (Cirque.Reach.enq pairQueue [7] (Cirque.Reach.new 2 pairQueue rfl))

/-- C4: for the growing-policy queue, any sequence of `Enqueue` and
`Dequeue` calls never drops an item — the dequeued values are exactly an
initial segment of the enqueued values, in order, with the rest still
pending — and `Len()` always equals the total number of items enqueued
minus the total number of items dequeued. -/
theorem C4_len_is_enqueued_minus_dequeued {T : Type} (n : Int) (cq0 : Cirque.State T)
    (h0 : Cirque.New T n = some cq0) (ops : List (Cirque.Op T)) :
    Cirque.Len (Cirque.runOps cq0 ops).1
        = ((Cirque.runOps cq0 ops).2.1.length : Int)
          - ((Cirque.runOps cq0 ops).2.2.length : Int)
      ∧ ∃ outVals pending,
          (Cirque.runOps cq0 ops).2.2 = outVals.map some
            ∧ (Cirque.runOps cq0 ops).2.1 = outVals ++ pending
            ∧ Cirque.Len (Cirque.runOps cq0 ops).1 = (pending.length : Int) := by
  obtain ⟨outVals, q', h1, h2, h3⟩ :=
    Cirque.runOps_spec ops cq0 [] (Cirque.rep_new n cq0 h0)
  rw [List.nil_append] at h3
  have hlen : Cirque.Len (Cirque.runOps cq0 ops).1 = (q'.length : Int) := h1.2.1
  refine ⟨?_, outVals, q', h2, h3, hlen⟩
  rw [hlen, h2, h3, List.length_append, List.length_map]
  push_cast
  omega

/-- C4 witness: capacity 3, enqueue two items then dequeue one. -/
theorem C4_len_is_enqueued_minus_dequeued_witness :
    Cirque.New Nat 3 = some threeQueue
      ∧ (Cirque.Len (Cirque.runOps threeQueue [Cirque.Op.enq [1, 2], Cirque.Op.deq 1]).1
          = ((Cirque.runOps threeQueue [Cirque.Op.enq [1, 2], Cirque.Op.deq 1]).2.1.length : Int)
            - ((Cirque.runOps threeQueue [Cirque.Op.enq [1, 2], Cirque.Op.deq 1]).2.2.length : Int)
        ∧ ∃ outVals pending,
            (Cirque.runOps threeQueue [Cirque.Op.enq [1, 2], Cirque.Op.deq 1]).2.2
                = outVals.map some
              ∧ (Cirque.runOps threeQueue [Cirque.Op.enq [1, 2], Cirque.Op.deq 1]).2.1
                = outVals ++ pending
              ∧ Cirque.Len (Cirque.runOps threeQueue [Cirque.Op.enq [1, 2], Cirque.Op.deq 1]).1
                = (pending.length : Int)) :=
  ⟨rfl, C4_len_is_enqueued_minus_dequeued 3 threeQueue rfl
    [Cirque.Op.enq [1, 2], Cirque.Op.deq 1]⟩

/-- C5: a growth event with positive amount `k` splices the `k` new empty
slots into the ring immediately after the slot at the write cursor and
nowhere else — the capacity counter grows by exactly `k`, the ring gains
exactly `k` slots (all empty, at the positions directly after the write
cursor), every existing slot keeps its identity, contents and relative
order, both cursors still name the same slots (the represented unread
contents between the cursors are untouched), and the length counter is
unchanged. -/
theorem C5_grow_frame {T : Type} {cq : Cirque.State T} {q : List T}
    (h : Cirque.Rep cq q) {k : Int} (hk : 0 < k) :
    (Cirque.grow cq k).cap = cq.cap + k
      ∧ (Cirque.grow cq k).len = cq.len
      ∧ (Cirque.grow cq k).writePos = cq.writePos
      ∧ (Cirque.grow cq k).ring.length = cq.ring.length + k.toNat
      ∧ (∀ j, j < k.toNat → (Cirque.grow cq k).ring[cq.writePos + 1 + j]? = some none)
      ∧ (∀ p, p ≤ cq.writePos → (Cirque.grow cq k).ring[p]? = cq.ring[p]?)
      ∧ (∀ p, cq.writePos < p → p < cq.ring.length →
          (Cirque.grow cq k).ring[p + k.toNat]? = cq.ring[p]?)
      ∧ Cirque.Rep (Cirque.grow cq k) q := by
  have hw := h.1.hw
  have hne : ¬ k < 0 := by omega
  refine ⟨?_, ?_, ?_, ?_, ?_, ?_, ?_, ?_⟩
  · rw [Cirque.grow, if_neg hne]
  · rw [Cirque.grow, if_neg hne]
  · rw [Cirque.grow, if_neg hne]
  · rw [Cirque.grow, if_neg hne]
    exact splice_length cq.ring cq.writePos k.toNat hw
  · intro j hj
    rw [Cirque.grow, if_neg hne]
    exact splice_getElem_new hw k.toNat j hj
  · intro p hp
    have hs := splice_getElem_old hw k.toNat p (lt_of_le_of_lt hp hw)
    rw [if_pos hp] at hs
    rw [Cirque.grow, if_neg hne]
    exact hs
  · intro p hpw hpl
    have hs := splice_getElem_old hw k.toNat p hpl
    rw [if_neg (by omega)] at hs
    rw [Cirque.grow, if_neg hne]
    exact hs
  · exact (Cirque.rep_grow h (by omega)).1

/-- C5 witness: the loaded capacity-2 queue holding one item, grown by 3
slots. -/
theorem C5_grow_frame_witness :
    Cirque.Rep loadedQueue [5]
      ∧ (Cirque.grow loadedQueue 3).cap = loadedQueue.cap + 3
      ∧ (Cirque.grow loadedQueue 3).len = loadedQueue.len
      ∧ (Cirque.grow loadedQueue 3).writePos = loadedQueue.writePos
      ∧ (Cirque.grow loadedQueue 3).ring.length = loadedQueue.ring.length + (3 : Int).toNat
      ∧ Cirque.Rep (Cirque.grow loadedQueue 3) [5] := by
  have h := C5_grow_frame rep_loadedQueue (k := 3) (by norm_num)
  exact ⟨rep_loadedQueue, h.1, h.2.1, h.2.2.1, h.2.2.2.1, h.2.2.2.2.2.2.2⟩

/-- C6 counterexample: the post-wake code path does not re-check the
fullness condition.  From the reachable full state of capacity 2 holding
one item, resuming the writer without any reader advance stores the item
anyway: the code path `afterWake` differs from the re-checking step
`afterWakeRechecked` modelled from the spec, and it advances the write
cursor onto the read cursor (the full ring now looks empty). -/
theorem C6_counterexample :
    (RingBuffer.WriteOrWait twinBuffer [5]).1 = loadedBuffer
      ∧ (loadedBuffer.writePos + 1) % loadedBuffer.ring.length = loadedBuffer.readPos
      ∧ RingBuffer.afterWake loadedBuffer 9 ≠ RingBuffer.afterWakeRechecked loadedBuffer 9
      ∧ (RingBuffer.afterWake loadedBuffer 9).writePos
          = (RingBuffer.afterWake loadedBuffer 9).readPos := by
  refine ⟨by decide, by decide, by decide, by decide⟩

/-- C6 amended: after being woken from the full-ring wait the writer does
not re-check the fullness condition — it stores the item and advances
unconditionally — and this is safe exactly because a wake-up only follows
an actual read-cursor advance: from any full state, once one item has been
read, the unconditional post-wake step agrees with the re-checking step
modelled from the spec and preserves the queue contents in FIFO order. -/
theorem C6_post_wake_write {T : Type} {rb : RingBuffer.State T} {x y : T} {q : List T}
    (h : RingBuffer.Rep rb (x :: q))
    (hfull : (rb.writePos + 1) % rb.ring.length = rb.readPos) :
    RingBuffer.afterWake (RingBuffer.Read rb 1).2 y
        = RingBuffer.afterWakeRechecked (RingBuffer.Read rb 1).2 y
      ∧ RingBuffer.Rep (RingBuffer.afterWake (RingBuffer.Read rb 1).2 y) (q ++ [y]) := by
  obtain ⟨hr1, hrep'⟩ := RingBuffer.rep_read_one h
  have hq : (x :: q).length = rb.ring.length - 1 := (RingRepr.full_iff h).mp hfull
  rw [List.length_cons] at hq
  have hL := h.hL
  have hlen2 : q.length + 1 < rb.ring.length := by
    have := h.hq
    rw [List.length_cons] at this
    omega
  have hring : (RingBuffer.moveReaderHeadForward rb).ring = rb.ring := rfl
  have hnotfull : ¬ ((RingBuffer.moveReaderHeadForward rb).writePos + 1)
      % (RingBuffer.moveReaderHeadForward rb).ring.length
      = (RingBuffer.moveReaderHeadForward rb).readPos := by
    intro hc
    have := (RingRepr.full_iff hrep').mp hc
    rw [hring] at this
    omega
  rw [hr1]
  constructor
  · rw [RingBuffer.afterWakeRechecked, if_neg hnotfull]
  · exact RingBuffer.rep_afterWake hrep' y (by rw [hring]; omega)

/-- C6 amended witness: the full capacity-2 queue holding the item 5; after
reading one item the post-wake write of 9 is unchecked yet correct. -/
theorem C6_post_wake_write_witness :
    (loadedBuffer.writePos + 1) % loadedBuffer.ring.length = loadedBuffer.readPos
      ∧ RingBuffer.afterWake (RingBuffer.Read loadedBuffer 1).2 9
          = RingBuffer.afterWakeRechecked (RingBuffer.Read loadedBuffer 1).2 9
      ∧ RingBuffer.Rep (RingBuffer.afterWake (RingBuffer.Read loadedBuffer 1).2 9) ([] ++ [9]) := by
  have h := @C6_post_wake_write Nat loadedBuffer 5 9 [] rep_loadedBuffer (by decide)
  exact ⟨by decide, h.1, h.2⟩

/-- C7: calling `Dequeue` (growing variant) or `Read` (blocking variant)
with any positive count on an empty queue — read cursor equal to write
cursor — returns a zero-length result, does not fail, and leaves the whole
state unchanged. -/
theorem C7_empty_read_safe {T : Type} (cq : Cirque.State T) (rb : RingBuffer.State T)
    (n : Int) (hn : 0 < n) (hcq : cq.readPos = cq.writePos)
    (hrb : rb.readPos = rb.writePos) :
    Cirque.Dequeue cq n = ([], cq) ∧ RingBuffer.Read rb n = ([], rb) := by
  obtain ⟨m, hm⟩ : ∃ m, n.toNat = m + 1 := ⟨n.toNat - 1, by omega⟩
  constructor
  · rw [Cirque.Dequeue, if_neg (by omega), hm, Cirque.dequeueLoop, if_pos hcq]
  · rw [RingBuffer.Read, if_neg (by omega), hm, RingBuffer.readLoop, if_pos hrb]

/-- C7 witness: the fresh capacity-2 queues with `maxCount = 5`. -/
theorem C7_empty_read_safe_witness :
    (0 : Int) < 5
      ∧ pairQueue.readPos = pairQueue.writePos
      ∧ twinBuffer.readPos = twinBuffer.writePos
      ∧ Cirque.Dequeue pairQueue 5 = ([], pairQueue)
      ∧ RingBuffer.Read twinBuffer 5 = ([], twinBuffer) := by
  have h := C7_empty_read_safe pairQueue twinBuffer 5 (by norm_num) rfl rfl
  exact ⟨by norm_num, rfl, rfl, h.1, h.2⟩

/-- C8: construction with a non-positive capacity fails (`New` returns
`nil`, no queue is created) for both variants; construction with any
positive capacity `n` succeeds and yields an empty queue whose read and
write cursors point at the same slot of a ring of `n` slots (and, for the
growing variant, `len = 0` and `cap = n`). -/
theorem C8_construction {T : Type} (n : Int) :
    (n ≤ 0 → Cirque.New T n = none ∧ RingBuffer.New T n = none)
      ∧ (0 < n → (Cirque.New T n).isSome ∧ (RingBuffer.New T n).isSome)
      ∧ (∀ cq : Cirque.State T, Cirque.New T n = some cq →
          cq.readPos = cq.writePos ∧ (cq.ring.length : Int) = n
            ∧ cq.len = 0 ∧ cq.cap = n)
      ∧ (∀ rb : RingBuffer.State T, RingBuffer.New T n = some rb →
          rb.readPos = rb.writePos ∧ (rb.ring.length : Int) = n) := by
  refine ⟨?_, ?_, ?_, ?_⟩
  · intro hn
    rw [Cirque.New, if_pos hn, RingBuffer.New, if_pos hn]
    exact ⟨rfl, rfl⟩
  · intro hn
    rw [Cirque.New, if_neg (by omega), RingBuffer.New, if_neg (by omega)]
    exact ⟨rfl, rfl⟩
  · intro cq hcq
    rw [Cirque.New] at hcq
    split at hcq
    · exact absurd hcq (by simp)
    next hn =>
      cases hcq
      refine ⟨rfl, ?_, rfl, rfl⟩
      rw [List.length_replicate]
      omega
  · intro rb hrb
    rw [RingBuffer.New] at hrb
    split at hrb
    · exact absurd hrb (by simp)
    next hn =>
      cases hrb
      refine ⟨rfl, ?_⟩
      rw [List.length_replicate]
      omega

/-- C8 witness: capacity −1 fails for both variants; capacity 5 succeeds
with the expected fresh state for both variants. -/
theorem C8_construction_witness :
    (Cirque.New Nat (-1) = none ∧ RingBuffer.New Nat (-1) = none)
      ∧ ((Cirque.New Nat 5).isSome ∧ (RingBuffer.New Nat 5).isSome)
      ∧ (fiveQueue.readPos = fiveQueue.writePos ∧ (fiveQueue.ring.length : Int) = 5
          ∧ fiveQueue.len = 0 ∧ fiveQueue.cap = 5)
      ∧ (fiveBuffer.readPos = fiveBuffer.writePos ∧ (fiveBuffer.ring.length : Int) = 5) :=
  ⟨(C8_construction (-1)).1 (by norm_num),
   (C8_construction 5).2.1 (by norm_num),
   (C8_construction 5).2.2.1 fiveQueue rfl,
   (C8_construction 5).2.2.2 fiveBuffer rfl⟩

/-- C9: invalid call arguments are silent no-ops, not errors: `Dequeue` and
`Read` with a non-positive count return an empty result and change no
state, and a growth request with a non-positive amount leaves the ring,
both cursors, the capacity counter and the length counter unchanged. -/
theorem C9_invalid_args_noop {T : Type} (cq : Cirque.State T) (rb : RingBuffer.State T)
    (n k : Int) (hn : n ≤ 0) (hk : k ≤ 0) :
    Cirque.Dequeue cq n = ([], cq)
      ∧ RingBuffer.Read rb n = ([], rb)
      ∧ Cirque.grow cq k = cq := by
  refine ⟨?_, ?_, ?_⟩
  · rw [Cirque.Dequeue, if_pos hn]
  · rw [RingBuffer.Read, if_pos hn]
  · rcases lt_or_eq_of_le hk with hk' | hk'
    · rw [Cirque.grow, if_pos hk']
    · subst hk'
      rw [Cirque.grow, if_neg (by omega)]
      cases cq with
      | mk ring r w len cap =>
        simp [List.take_append_drop]

/-- C9 witness: `maxCount = −2` on the fresh capacity-2 queues and a growth
request of 0. -/
theorem C9_invalid_args_noop_witness :
    ((-2 : Int) ≤ 0 ∧ (0 : Int) ≤ 0)
      ∧ Cirque.Dequeue pairQueue (-2) = ([], pairQueue)
      ∧ RingBuffer.Read twinBuffer (-2) = ([], twinBuffer)
      ∧ Cirque.grow pairQueue 0 = pairQueue := by
  have h := C9_invalid_args_noop pairQueue twinBuffer (-2) 0 (by norm_num) (by norm_num)
  exact ⟨⟨by norm_num, by norm_num⟩, h.1, h.2.1, h.2.2⟩

/-- C10: in both variants a ring of capacity `c` holds at most `c − 1`
items; the fullness test (the slot after the write cursor equals the read
cursor) holds exactly when the number of stored-but-unread items equals
`capacity − 1` — so the growing-policy `Enqueue` invokes growth, and the
blocking-policy writer waits, one slot before the ring is arithmetically
full — and a growth triggered while enqueueing a batch of `b` items raises
the capacity counter from `c` to `2c + b`. -/
theorem C10_capacity_minus_one {T : Type} {cq : Cirque.State T} {q : List T}
    (h : Cirque.Rep cq q) (rb : RingBuffer.State T)
    (hL : 0 < rb.ring.length) (hr : rb.readPos < rb.ring.length)
    (hw : rb.writePos < rb.ring.length) {b : Int} (hb : 0 ≤ b) :
    q.length ≤ cq.ring.length - 1
      ∧ (((cq.writePos + 1) % cq.ring.length = cq.readPos) ↔ cq.len = cq.cap - 1)
      ∧ (((rb.writePos + 1) % rb.ring.length = rb.readPos)
          ↔ RingBuffer.itemDist rb = rb.ring.length - 1)
      ∧ ∀ x : T,
          (((cq.writePos + 1) % cq.ring.length = cq.readPos →
              (Cirque.enqueueStep b cq x).cap = 2 * cq.cap + b)
            ∧ (¬ (cq.writePos + 1) % cq.ring.length = cq.readPos →
              (Cirque.enqueueStep b cq x).cap = cq.cap)) := by
  obtain ⟨hrr, hlen, hcap⟩ := h
  have hq := hrr.hq
  have hLc := hrr.hL
  refine ⟨by omega, ?_, ?_, ?_⟩
  · rw [RingRepr.full_iff hrr]
    omega
  · rw [RingBuffer.itemDist]
    rcases mod_two_cases (a := rb.writePos + 1) hL (by omega) with ⟨h1, e1⟩ | ⟨h1, e1⟩ <;>
      rcases mod_two_cases (a := rb.writePos + rb.ring.length - rb.readPos) hL
        (by omega) with ⟨h2, e2⟩ | ⟨h2, e2⟩ <;> omega
  · intro x
    constructor
    · intro hfull
      rw [Cirque.enqueueStep, if_pos hfull, Cirque.writeLenAdvance,
        Cirque.moveWriterHeadForward, Cirque.write]
      show (Cirque.grow cq (cq.cap + b)).cap = _
      rw [Cirque.grow, if_neg (by omega)]
      show cq.cap + (cq.cap + b) = _
      ring
    · intro hfull
      rw [Cirque.enqueueStep, if_neg hfull, Cirque.writeLenAdvance,
        Cirque.moveWriterHeadForward, Cirque.write]

/-- C10 witness: the loaded capacity-2 queue (one item pending, hence full)
and the loaded capacity-2 blocking buffer, with batch length 4. -/
theorem C10_capacity_minus_one_witness :
    Cirque.Rep loadedQueue [5]
      ∧ ([5] : List Nat).length ≤ loadedQueue.ring.length - 1
      ∧ (((loadedQueue.writePos + 1) % loadedQueue.ring.length = loadedQueue.readPos)
          ↔ loadedQueue.len = loadedQueue.cap - 1)
      ∧ (((loadedBuffer.writePos + 1) % loadedBuffer.ring.length = loadedBuffer.readPos)
          ↔ RingBuffer.itemDist loadedBuffer = loadedBuffer.ring.length - 1)
      ∧ (((loadedQueue.writePos + 1) % loadedQueue.ring.length = loadedQueue.readPos →
            (Cirque.enqueueStep 4 loadedQueue 9).cap = 2 * loadedQueue.cap + 4)
          ∧ (¬ (loadedQueue.writePos + 1) % loadedQueue.ring.length = loadedQueue.readPos →
            (Cirque.enqueueStep 4 loadedQueue 9).cap = loadedQueue.cap)) := by
  have h := C10_capacity_minus_one rep_loadedQueue loadedBuffer
    (by decide) (by decide) (by decide) (b := 4) (by norm_num)
  exact ⟨rep_loadedQueue, h.1, h.2.1, h.2.2.1, h.2.2.2 9⟩
